import Mathlib

/-!
Verification development for the Battle Royale giveaway engine
(`src/index.js`): shallow embedding of the fairness derivation
(`hmacFloat`), the join queue and join-button handler, the seeds-modal
handler, and the round-elimination core (`runBattleRoyale`), together
with theorems settling the specification's claims about them.

Modelling conventions:
* JavaScript strings and Buffers are modelled as `List ℕ` of bytes
  (`crypto.createHmac(...).update(message)` consumes the UTF-8 bytes of
  the message string).
* JavaScript numbers are IEEE-754 binary64 values; every number that
  the relevant code paths produce is a nonnegative dyadic rational
  inside the normal range, so they are modelled by `Dyadic`
  numerator/exponent pairs with explicit rounding to 53 significant
  bits, ties to even (`flD`); fairness quotients, which are exact in
  binary64, are modelled as `ℚ`.
* Node's `crypto` HMAC-SHA512 is embedded in full (FIPS 180-4),
  byte-for-byte, so that the model is executable.
-/

namespace StreamGA

/-! ### SHA-512 (FIPS 180-4), as used by `crypto.createHmac('sha512', ...)` -/

/-- Modulus for 64-bit words. -/
def w64 : ℕ := 2 ^ 64

/-- Right rotation of a 64-bit word. -/
def rotr64 (n x : ℕ) : ℕ := ((x >>> n) ||| (x <<< (64 - n))) % w64

/-- Logical right shift of a 64-bit word. -/
def shr64 (n x : ℕ) : ℕ := x >>> n

/-- SHA-512 Σ₀. -/
def bigSigma0 (x : ℕ) : ℕ := rotr64 28 x ^^^ rotr64 34 x ^^^ rotr64 39 x

/-- SHA-512 Σ₁. -/
def bigSigma1 (x : ℕ) : ℕ := rotr64 14 x ^^^ rotr64 18 x ^^^ rotr64 41 x

/-- SHA-512 σ₀. -/
def smallSigma0 (x : ℕ) : ℕ := rotr64 1 x ^^^ rotr64 8 x ^^^ shr64 7 x

/-- SHA-512 σ₁. -/
def smallSigma1 (x : ℕ) : ℕ := rotr64 19 x ^^^ rotr64 61 x ^^^ shr64 6 x

/-- SHA-512 Ch function (`(x ∧ y) ⊕ (¬x ∧ z)` on 64-bit words). -/
def chFun (x y z : ℕ) : ℕ := (x &&& y) ^^^ ((x ^^^ (w64 - 1)) &&& z)

/-- SHA-512 Maj function. -/
def majFun (x y z : ℕ) : ℕ := (x &&& y) ^^^ (x &&& z) ^^^ (y &&& z)

/-- Trial-division primality test, adequate for the small primes that
seed the SHA-512 constants. -/
def isPrimeNat (n : ℕ) : Bool :=
  decide (2 ≤ n) && (((List.range n).drop 2).all (fun d => n % d != 0))

/-- The first `k` prime numbers (the eightieth prime is 409). -/
def firstPrimes (k : ℕ) : List ℕ := ((List.range 500).filter isPrimeNat).take k

/-- Binary search step for the integer cube root. -/
def cbrtSearch (n : ℕ) : ℕ → ℕ → ℕ → ℕ
  | 0, lo, _ => lo
  | fuel + 1, lo, hi =>
      if hi ≤ lo then lo
      else
        let mid := (lo + hi + 1) / 2
        if mid * mid * mid ≤ n then cbrtSearch n fuel mid hi
        else cbrtSearch n fuel lo (mid - 1)

/-- Integer cube root: the largest `x` with `x^3 ≤ n`. -/
def natCbrt (n : ℕ) : ℕ := cbrtSearch n 256 0 n

/-- The eighty SHA-512 round constants: for the `i`-th prime `p`, the
first 64 bits of the fractional part of the cube root of `p`
(FIPS 180-4 section 4.2.3). -/
def sha512K : List ℕ :=
  (firstPrimes 80).map (fun p => natCbrt (p <<< 192) % 2 ^ 64)

/-- The SHA-512 initial hash value: the first 64 bits of the
fractional parts of the square roots of the first eight primes
(FIPS 180-4 section 5.3.5). -/
def sha512H0 : List ℕ :=
  (firstPrimes 8).map (fun p => Nat.sqrt (p <<< 128) % 2 ^ 64)

/-- Big-endian 64-bit word number `t` of a 128-byte block. -/
def word64At (block : List ℕ) (t : ℕ) : ℕ :=
  ((block.drop (8 * t)).take 8).foldl (fun a b => a * 256 + b) 0

/-- One extension step of the SHA-512 message schedule. -/
def nextW (w : List ℕ) : ℕ :=
  let n := w.length
  (smallSigma1 (w.getD (n - 2) 0) + w.getD (n - 7) 0 +
    smallSigma0 (w.getD (n - 15) 0) + w.getD (n - 16) 0) % w64

/-- The eighty-word SHA-512 message schedule of one block. -/
def schedule (block : List ℕ) : List ℕ :=
  (List.range 64).foldl (fun w _ => w ++ [nextW w])
    ((List.range 16).map (word64At block))

/-- One round of the SHA-512 compression function on the eight-word state. -/
def compressStep (st : List ℕ) (wk : ℕ × ℕ) : List ℕ :=
  let a := st.getD 0 0
  let b := st.getD 1 0
  let c := st.getD 2 0
  let d := st.getD 3 0
  let e := st.getD 4 0
  let f := st.getD 5 0
  let g := st.getD 6 0
  let h := st.getD 7 0
  let t1 := (h + bigSigma1 e + chFun e f g + wk.2 + wk.1) % w64
  let t2 := (bigSigma0 a + majFun a b c) % w64
  [(t1 + t2) % w64, a, b, c, (d + t1) % w64, e, f, g]

/-- SHA-512 compression of one 128-byte block into the running state. -/
def sha512Compress (st : List ℕ) (block : List ℕ) : List ℕ :=
  let final := ((schedule block).zip sha512K).foldl compressStep st
  (st.zip final).map (fun p => (p.1 + p.2) % w64)

/-- Big-endian bytes of a 64-bit word. -/
def word64ToBytes (w : ℕ) : List ℕ :=
  (List.range 8).map (fun i => (w >>> (8 * (7 - i))) &&& 255)

/-- SHA-512 padding: append `0x80`, zeros to 112 mod 128, then the
128-bit big-endian bit length. -/
def sha512Pad (msg : List ℕ) : List ℕ :=
  let L := msg.length
  let padLen := (240 - ((L + 1) % 128)) % 128
  let lenBytes := (List.range 16).map (fun i => ((8 * L) >>> (8 * (15 - i))) &&& 255)
  msg ++ [0x80] ++ List.replicate padLen 0 ++ lenBytes

/-- SHA-512 digest (64 bytes) of a byte message. -/
def sha512 (msg : List ℕ) : List ℕ :=
  let padded := sha512Pad msg
  let blocks := (List.range (padded.length / 128)).map
    (fun b => (padded.drop (128 * b)).take 128)
  (blocks.foldl sha512Compress sha512H0).flatMap word64ToBytes

/-- HMAC-SHA512 (RFC 2104) of a byte message under a byte key, as
computed by `crypto.createHmac('sha512', serverSeed)`. -/
def hmacSha512 (key msg : List ℕ) : List ℕ :=
  let k0 := if 128 < key.length then sha512 key ++ List.replicate 64 0
            else key ++ List.replicate (128 - key.length) 0
  let ipadK := k0.map (fun b => b ^^^ 0x36)
  let opadK := k0.map (fun b => b ^^^ 0x5c)
  sha512 (opadK ++ sha512 (ipadK ++ msg))

/-! ### Hex encoding and `parseInt(prefix, 16)` -/

/-- Lowercase hex digit characters, as produced by `digest('hex')`. -/
def hexDigitChar (n : ℕ) : Char := "0123456789abcdef".toList.getD n '0'

/-- Two hex characters of one byte. -/
def byteHex (b : ℕ) : List Char := [hexDigitChar (b / 16), hexDigitChar (b % 16)]

/-- Hex encoding of a byte list (the `'hex'` digest encoding). -/
def hexEncode (bs : List ℕ) : List Char := bs.flatMap byteHex

/-- Numeric value of a hex digit character (`parseInt` digit semantics,
lowercase and uppercase). -/
def hexVal (c : Char) : ℕ :=
  if 97 ≤ c.toNat then c.toNat - 87
  else if 65 ≤ c.toNat then c.toNat - 55
  else c.toNat - 48

/-- Value of a base-16 digit string, as `parseInt(s, 16)` computes it on
a string of hex digits. -/
def parseHexChars (cs : List Char) : ℕ := cs.foldl (fun a c => 16 * a + hexVal c) 0

/-! ### The fairness oracle `hmacFloat` (src/index.js lines 113-120) -/

/-- Embedding of `hmacFloat(serverSeed, message)`: HMAC-SHA512 hex
digest, first 13 hex characters, `parseInt(prefix, 16)`, divided by
`Math.pow(16, 13)`.  The quotient of the 52-bit integer by `16^13 = 2^52`
is exact in binary64, so the JavaScript number equals this rational. -/
def hmacFloat (serverSeed message : List ℕ) : ℚ :=
  let h := hexEncode (hmacSha512 serverSeed message)
  (parseHexChars (h.take 13) : ℚ) / 16 ^ 13

/-- Decimal ASCII bytes of a natural number, as string interpolation of
an entry index produces them. -/
def decimalDigits (i : ℕ) : List ℕ := (Nat.toDigits 10 i).map Char.toNat

/-- The derivation message `` `${clientSeed1}:${clientSeed2}:${i}` ``
built in `runBattleRoyale` (src/index.js line 378); 58 is `':'`. -/
def pfMessage (cs1 cs2 : List ℕ) (i : ℕ) : List ℕ :=
  cs1 ++ [58] ++ cs2 ++ [58] ++ decimalDigits i

/-- The fairness value of entry index `i`:
`hmacFloat(serverSeed, clientSeed1 + ":" + clientSeed2 + ":" + i)`. -/
def pfFloatOf (serverSeed cs1 cs2 : List ℕ) (i : ℕ) : ℚ :=
  hmacFloat serverSeed (pfMessage cs1 cs2 i)

/-! ### IEEE-754 binary64 arithmetic on dyadic rationals

The elimination arithmetic of `runBattleRoyale` multiplies entry counts
by the literals `0.30`, `0.40`, `0.25`, `0.12` (and subtracts them from
`1`) as JavaScript numbers.  Every value appearing there is a
nonnegative dyadic rational well inside the normal binary64 range, so
binary64 arithmetic is modelled exactly: a value is represented as a
numerator/exponent pair `⟨m, e⟩` denoting `m / 2^e` (not necessarily
normalized; rounding to 53 significant bits depends only on the
denoted value), and each arithmetic operation rounds its exact result
to 53 significant bits with ties to even, exactly as binary64 does. -/

/-- Number of binary digits of a natural number (`0` for `0`),
computed with explicit fuel so that it reduces by `rfl`. -/
def bitSizeAux : ℕ → ℕ → ℕ
  | 0, _ => 0
  | fuel + 1, n => if n = 0 then 0 else bitSizeAux fuel (n / 2) + 1

/-- Number of binary digits of a natural number. -/
def bitSize (n : ℕ) : ℕ := bitSizeAux n n

/-- A nonnegative binary64 value, denoting `m / 2^e`.  Exponent bounds
are ignored: every value the embedded code computes is far from
overflow and from the subnormal range. -/
structure Dyadic where
  m : ℕ
  e : ℕ
deriving DecidableEq, Repr

/-- The rational value denoted by a dyadic. -/
def Dyadic.toRat (d : Dyadic) : ℚ := (d.m : ℚ) / 2 ^ d.e

/-- Round the dyadic rational `m / 2^e` to the nearest binary64 value:
53 significant bits, ties to even. -/
def flD (m e : ℕ) : Dyadic :=
  if bitSize m ≤ 53 then ⟨m, e⟩
  else
    let s := bitSize m - 53
    let hi := m >>> s
    let r := m % 2 ^ s
    let half := 2 ^ (s - 1)
    let hi2 := if half < r ∨ (r = half ∧ hi % 2 = 1) then hi + 1 else hi
    ⟨hi2 <<< s, e⟩

/-- Binary64 multiplication of nonnegative binary64 values. -/
def jsMulD (x y : Dyadic) : Dyadic := flD (x.m * y.m) (x.e + y.e)

/-- Binary64 subtraction `1 - f` for a binary64 value `f ≤ 1`. -/
def oneMinusD (f : Dyadic) : Dyadic := flD (2 ^ f.e - f.m) f.e

/-- `Math.floor` of a nonnegative binary64 value. -/
def Dyadic.floorNat (d : Dyadic) : ℕ := d.m >>> d.e

/-- A natural number as a binary64 value (exact for `n < 2^53`; entry
counts are far smaller). -/
def ofNatD (n : ℕ) : Dyadic := ⟨n, 0⟩

/-- The binary64 value of the literal `0.30`. -/
def double03 : Dyadic := ⟨5404319552844595, 54⟩

/-- The binary64 value of the literal `0.40`. -/
def double04 : Dyadic := ⟨3602879701896397, 53⟩

/-- The binary64 value of the literal `0.25` (exact). -/
def double025 : Dyadic := ⟨1, 2⟩

/-- The binary64 value of the literal `0.12`. -/
def double012 : Dyadic := ⟨8646911284551352, 56⟩

/-- The three round elimination fractions `rounds = [0.30, 0.40, 0.25]`
(src/index.js line 386). -/
def roundFracs : List Dyadic := [double03, double04, double025]

/-- Keep count of one of rounds 1-3:
`Math.max(1, Math.floor(currentEntries.length * (1 - eliminatePercent)))`
(src/index.js line 430), in binary64 arithmetic. -/
def roundKeep (n : ℕ) (f : Dyadic) : ℕ := max 1 (jsMulD (ofNatD n) (oneMinusD f)).floorNat

/-- Elimination chunk of one final-phase pass:
`Math.max(1, Math.floor(currentEntries.length * 0.12))`
(src/index.js line 453), in binary64 arithmetic. -/
def finalToEliminate (n : ℕ) : ℕ := max 1 (jsMulD (ofNatD n) double012).floorNat

/-- Keep count of one final-phase pass:
`Math.max(1, currentEntries.length - toEliminate)` (src/index.js
line 469); the subtraction is integer-exact in binary64. -/
def finalKeep (n : ℕ) : ℕ := (max 1 ((n : ℤ) - finalToEliminate n)).toNat

/-! ### Data model (the `gw` giveaway records of src/index.js) -/

/-- One entry row `{id, userId, username}` pushed by the join task
(src/index.js line 314). -/
structure Entry where
  id : String
  userId : String
  username : String
deriving DecidableEq, Repr

/-- An entry with its fairness data attached by `runBattleRoyale`:
`seqIndex` is the 0-based position in `gw.entries` (the loop variable
`i` of src/index.js line 376) and `pfFloat` the derived fairness value
stored on the row. -/
structure RankedEntry where
  entry : Entry
  seqIndex : ℕ
  pfFloat : ℚ
deriving DecidableEq, Repr

/-- One `{roleId, entries}` element of a setup's `roleEntries`.  A JS
falsy `roleId` (skipped by the join task) is modelled as `""`; a falsy
`entries` value, which falls back to the current count, is modelled by
`0` (equivalent under `max`). -/
structure RoleEntry where
  roleId : String
  entries : ℕ
deriving DecidableEq, Repr

/-- The parts of a setup used by the join task: `baseEntries` (`none`
when falsy, in which case the multiplier starts at 1) and
`roleEntries`. -/
structure Setup where
  baseEntries : Option ℕ
  roleEntries : List RoleEntry
deriving DecidableEq, Repr

/-- A giveaway record (the fields of the `gw` object relevant to the
engine).  Client seeds are `none` until the seeds modal sets them;
`winner` and `finalFloats` are `none` until a run completes. -/
structure Giveaway where
  setup : Setup
  entries : List Entry
  entrantsByUser : String → ℕ
  collecting : Bool
  serverSeed : List ℕ
  clientSeed1 : Option (List ℕ)
  clientSeed2 : Option (List ℕ)
  finalFloats : Option (List RankedEntry)
  winner : Option RankedEntry

/-! ### Ranking (src/index.js lines 374-383) -/

/-- Attach fairness floats: the loop
`for i: entries[i].pfFloat = hmacFloat(serverSeed, cs1:cs2:i)`,
started at index `i`. -/
def attachFloatsAux (serverSeed cs1 cs2 : List ℕ) : ℕ → List Entry → List RankedEntry
  | _, [] => []
  | i, e :: es =>
      ⟨e, i, pfFloatOf serverSeed cs1 cs2 i⟩ :: attachFloatsAux serverSeed cs1 cs2 (i + 1) es

/-- Fairness floats for a whole entry list, indexed from 0. -/
def attachFloats (serverSeed cs1 cs2 : List ℕ) (es : List Entry) : List RankedEntry :=
  attachFloatsAux serverSeed cs1 cs2 0 es

/-- The sort comparator `(a, b) => b.pfFloat - a.pfFloat`: `a` sorts
no later than `b` exactly when `b.pfFloat ≤ a.pfFloat` (descending). -/
def rLe (a b : RankedEntry) : Prop := b.pfFloat ≤ a.pfFloat

instance : DecidableRel rLe := fun a b => inferInstanceAs (Decidable (b.pfFloat ≤ a.pfFloat))

instance : IsTotal RankedEntry rLe := ⟨fun a b => by unfold rLe; exact le_total _ _⟩

instance : IsTrans RankedEntry rLe := ⟨fun _ _ _ h1 h2 => le_trans h2 h1⟩

/-- The frozen ranking: `entries.sort((a,b) => b.pfFloat - a.pfFloat)`.
`Array.prototype.sort` is stable (ECMAScript 2019), so its result is
the stable descending sort, modelled by insertion sort with the
non-strict descending relation. -/
def rankedOf (serverSeed cs1 cs2 : List ℕ) (es : List Entry) : List RankedEntry :=
  List.insertionSort rLe (attachFloats serverSeed cs1 cs2 es)

/-! ### Rounds 1-3 and the final phase (src/index.js lines 406-475) -/

/-- End-of-round elimination: keep the top `roundKeep` entries
(`currentEntries = currentEntries.slice(0, keepCount)`). -/
def applyRound (l : List RankedEntry) (f : Dyadic) : List RankedEntry :=
  l.take (roundKeep l.length f)

/-- The three fixed rounds applied in order. -/
def roundsPhase (l : List RankedEntry) : List RankedEntry :=
  roundFracs.foldl applyRound l

/-- One pass of the final phase: keep the top `finalKeep` entries. -/
def finalPass (l : List RankedEntry) : List RankedEntry :=
  l.take (finalKeep l.length)

/-- The final-phase loop `while (currentEntries.length > 1)`, with
explicit fuel; each pass strictly shrinks the list, so `l.length` fuel
always suffices. -/
def finalPhaseAux : ℕ → List RankedEntry → List RankedEntry
  | 0, l => l
  | fuel + 1, l => if l.length ≤ 1 then l else finalPhaseAux fuel (finalPass l)

/-- The final phase: repeat passes until at most one entry remains. -/
def finalPhase (l : List RankedEntry) : List RankedEntry :=
  finalPhaseAux l.length l

/-! ### `runBattleRoyale` (src/index.js lines 360-511) -/

/-- Embedding of `runBattleRoyale`: reject when a client seed is
missing (`throw new Error('Seeds missing')`); return the giveaway
unchanged when there are no entries; otherwise rank the entries once,
run rounds 1-3 and the final phase, and record the winner
(`currentEntries[0]`, here `head?` of the surviving list) and
`finalFloats` (the ranked entries with their floats).  Message and
channel I/O is dropped. -/
def runBattleRoyale (gw : Giveaway) : Except String Giveaway :=
  match gw.clientSeed1, gw.clientSeed2 with
  | some cs1, some cs2 =>
      if gw.entries.isEmpty then Except.ok gw
      else
        let ranked := rankedOf gw.serverSeed cs1 cs2 gw.entries
        let survivors := finalPhase (roundsPhase ranked)
        Except.ok { gw with winner := survivors.head?, finalFloats := some ranked }
  | _, _ => Except.error "Seeds missing"

/-! ### Join handling (src/index.js lines 288-332) -/

/-- A join request: the clicking user, and the member's role ids as
resolved at processing time (`none` when the member fetch fails, in
which case the role loop is skipped). -/
structure JoinRequest where
  userId : String
  username : String
  memberRoles : Option (List String)
deriving DecidableEq, Repr

/-- Entry multiplier of the queued join task (src/index.js
lines 297-310): start from `baseEntries` (1 when falsy), then for each
role entry with a truthy `roleId` held by the member take the max with
its configured `entries`. -/
def computeEntryCount (setup : Setup) (memberRoles : Option (List String)) : ℕ :=
  let base := setup.baseEntries.getD 1
  match memberRoles with
  | none => base
  | some roles =>
      setup.roleEntries.foldl
        (fun acc re => if re.roleId != "" && roles.contains re.roleId then max acc re.entries else acc)
        base

/-- The `entryCount` rows pushed by one join (src/index.js
lines 312-317). -/
def mkEntries (userId username : String) (cnt : ℕ) : List Entry :=
  List.replicate cnt ⟨"e", userId, username⟩

/-- Increment of the per-user entry total
(`gw.entrantsByUser[uid] = (old || 0) + newEntries.length`). -/
def bumpTotals (m : String → ℕ) (uid : String) (k : ℕ) : String → ℕ :=
  fun u => if u = uid then m u + k else m u

/-- The join-button handler (src/index.js lines 288-295): reject when
the giveaway is not collecting, otherwise push the request onto the
join queue.  Returns the new queue and an optional rejection reply. -/
def handleJoinButton (gw : Giveaway) (queue : List JoinRequest) (req : JoinRequest) :
    List JoinRequest × Option String :=
  if gw.collecting then (queue ++ [req], none)
  else (queue, some "Collection already ended.")

/-- The queued join task (src/index.js lines 295-332): compute the
multiplier, append that many entries to the ledger and bump the user's
total.  Note that the task does not re-check `gw.collecting`. -/
def processJoin (gw : Giveaway) (req : JoinRequest) : Giveaway :=
  let cnt := computeEntryCount gw.setup req.memberRoles
  { gw with
      entries := gw.entries ++ mkEntries req.userId req.username cnt,
      entrantsByUser := bumpTotals gw.entrantsByUser req.userId cnt }

/-! ### Seeds modal handling (src/index.js lines 262-281) -/

/-- The seeds modal submit handler: store both client seeds on the
giveaway (unconditionally — there is no state check) and start
`runBattleRoyale`. -/
def submitSeeds (gw : Giveaway) (cs1 cs2 : List ℕ) : Except String Giveaway :=
  runBattleRoyale { gw with clientSeed1 := some cs1, clientSeed2 := some cs2 }

/-- The giveaway record produced by a completed run on a giveaway with
the given fields: both seeds set, `finalFloats` = the frozen ranking,
`winner` = the single survivor of the elimination phases. -/
def runResult (su : Setup) (es : List Entry) (tot : String → ℕ) (col : Bool)
    (ss cs1 cs2 : List ℕ) : Giveaway :=
  ⟨su, es, tot, col, ss, some cs1, some cs2,
    some (rankedOf ss cs1 cs2 es),
    (finalPhase (roundsPhase (rankedOf ss cs1 cs2 es))).head?⟩

/-! ### Derived order and concrete fixtures -/

/-- The ranking order described by the spec: strictly higher fairness
value first, ties broken by ascending sequence index. -/
def lexRank (a b : RankedEntry) : Prop :=
  b.pfFloat < a.pfFloat ∨ (a.pfFloat = b.pfFloat ∧ a.seqIndex < b.seqIndex)

/-- A pool of `n` placeholder ranked entries, used to exercise the
round arithmetic on concrete sizes. -/
def testPool (n : ℕ) : List RankedEntry :=
  (List.range n).map fun i => ⟨⟨"e", "u", "u"⟩, i, 0⟩

/-- A concrete giveaway with one admitted entry and revealed seeds. -/
def demoGw : Giveaway where
  setup := ⟨some 1, [⟨"vip", 5⟩]⟩
  entries := [⟨"e1", "alice", "alice"⟩]
  entrantsByUser := fun _ => 0
  collecting := false
  serverSeed := [107]
  clientSeed1 := some [97]
  clientSeed2 := some [98]
  finalFloats := none
  winner := none

/-- The same giveaway with an empty entry pool. -/
def emptyGw : Giveaway := { demoGw with entries := [] }

/-- A finished giveaway: a winner has been recorded. -/
def finishedGw : Giveaway :=
  { demoGw with
      winner := some ⟨⟨"e1", "alice", "alice"⟩, 0, 0⟩,
      finalFloats := some [⟨⟨"e1", "alice", "alice"⟩, 0, 0⟩] }

/-! ### Range of the fairness value -/

theorem hexVal_hexDigitChar_lt (n : ℕ) : hexVal (hexDigitChar n) < 16 := by
  by_cases h : n < 16
  · interval_cases n <;> decide
  · have hlen : ("0123456789abcdef".toList).length ≤ n := by
      simpa using Nat.le_of_not_lt h
    unfold hexDigitChar
    rw [List.getD_eq_default _ _ hlen]
    decide

theorem mem_hexEncode_lt {bs : List ℕ} {c : Char} (h : c ∈ hexEncode bs) : hexVal c < 16 := by
  unfold hexEncode at h
  rcases List.mem_flatMap.mp h with ⟨b, _, hc⟩
  have hc2 : c = hexDigitChar (b / 16) ∨ c = hexDigitChar (b % 16) := by
    simpa [byteHex] using hc
  rcases hc2 with rfl | rfl <;> exact hexVal_hexDigitChar_lt _

theorem parseHexChars_aux_lt (cs : List Char) (h : ∀ c ∈ cs, hexVal c < 16) :
    ∀ a : ℕ, cs.foldl (fun a c => 16 * a + hexVal c) a < (a + 1) * 16 ^ cs.length := by
  induction cs with
  | nil => intro a; simp
  | cons c cs ih =>
      intro a
      have hc : hexVal c < 16 := h c (List.mem_cons_self ..)
      have hrest : ∀ x ∈ cs, hexVal x < 16 := fun x hx => h x (List.mem_cons_of_mem _ hx)
      have step := ih hrest (16 * a + hexVal c)
      calc (c :: cs).foldl (fun a c => 16 * a + hexVal c) a
          = cs.foldl (fun a c => 16 * a + hexVal c) (16 * a + hexVal c) := rfl
        _ < (16 * a + hexVal c + 1) * 16 ^ cs.length := step
        _ ≤ ((a + 1) * 16) * 16 ^ cs.length := by
            have : 16 * a + hexVal c + 1 ≤ (a + 1) * 16 := by omega
            exact Nat.mul_le_mul_right _ this
        _ = (a + 1) * 16 ^ (c :: cs).length := by
            rw [List.length_cons, pow_succ]; ring

theorem parseHexChars_lt (cs : List Char) (h : ∀ c ∈ cs, hexVal c < 16) :
    parseHexChars cs < 16 ^ cs.length := by
  simpa using parseHexChars_aux_lt cs h 0

theorem hmacFloat_nonneg (serverSeed message : List ℕ) : 0 ≤ hmacFloat serverSeed message := by
  unfold hmacFloat
  positivity

theorem hmacFloat_lt_one (serverSeed message : List ℕ) : hmacFloat serverSeed message < 1 := by
  unfold hmacFloat
  rw [div_lt_one (by positivity)]
  have hdigits : ∀ c ∈ (hexEncode (hmacSha512 serverSeed message)).take 13, hexVal c < 16 :=
    fun c hc => mem_hexEncode_lt (List.mem_of_mem_take hc)
  have h1 : parseHexChars ((hexEncode (hmacSha512 serverSeed message)).take 13) < 16 ^ 13 := by
    have h2 := parseHexChars_lt _ hdigits
    have h3 : ((hexEncode (hmacSha512 serverSeed message)).take 13).length ≤ 13 := by
      simp [List.length_take]
    exact lt_of_lt_of_le h2 (Nat.pow_le_pow_right (by norm_num) h3)
  exact_mod_cast h1

/-- C1: for every server seed, client seed pair and 0-based entry
index, the fairness derivation is HMAC-SHA512 keyed by the server seed
over `clientSeed1 ++ ":" ++ clientSeed2 ++ ":" ++ decimal index`
(definitions `pfMessage`, `pfFloatOf`, `hmacFloat`), whose value is
deterministic in its inputs and always lies in `[0, 1)`. -/
theorem pfFloat_deterministic_in_unit :
    ∀ (serverSeed cs1 cs2 : List ℕ) (i : ℕ),
      0 ≤ pfFloatOf serverSeed cs1 cs2 i ∧
      pfFloatOf serverSeed cs1 cs2 i < 1 ∧
      (∀ (s' c1' c2' : List ℕ) (i' : ℕ),
        serverSeed = s' → cs1 = c1' → cs2 = c2' → i = i' →
        pfFloatOf serverSeed cs1 cs2 i = pfFloatOf s' c1' c2' i') := by
  intro serverSeed cs1 cs2 i
  refine ⟨hmacFloat_nonneg _ _, hmacFloat_lt_one _ _, ?_⟩
  rintro s' c1' c2' i' rfl rfl rfl rfl
  rfl

/-- Witness for C1 at a concrete input. -/
theorem pfFloat_deterministic_in_unit_witness :
    0 ≤ pfFloatOf [1] [2] [3] 0 ∧ pfFloatOf [1] [2] [3] 0 < 1 ∧
      pfFloatOf [1] [2] [3] 0 = pfFloatOf [1] [2] [3] 0 :=
  ⟨(pfFloat_deterministic_in_unit [1] [2] [3] 0).1,
   (pfFloat_deterministic_in_unit [1] [2] [3] 0).2.1,
   (pfFloat_deterministic_in_unit [1] [2] [3] 0).2.2 [1] [2] [3] 0 rfl rfl rfl rfl⟩

/-! ### Stability of the ranking sort -/

theorem lexRank_pf_le {a b : RankedEntry} (h : lexRank a b) : b.pfFloat ≤ a.pfFloat :=
  h.elim le_of_lt (fun hh => le_of_eq hh.1.symm)

theorem pairwise_lexRank_orderedInsert (a : RankedEntry) (l : List RankedEntry)
    (hl : l.Pairwise lexRank) (ha : ∀ b ∈ l, a.seqIndex < b.seqIndex) :
    (List.orderedInsert rLe a l).Pairwise lexRank := by
  induction l with
  | nil => simp [List.orderedInsert]
  | cons b t ih =>
      rcases List.pairwise_cons.mp hl with ⟨hbt, ht⟩
      rw [List.orderedInsert]
      split_ifs with hab
      · refine List.Pairwise.cons ?_ hl
        intro x hx
        have hxa : x.pfFloat ≤ a.pfFloat := by
          rcases List.mem_cons.mp hx with rfl | hxt
          · exact hab
          · exact le_trans (lexRank_pf_le (hbt x hxt)) hab
        rcases lt_or_eq_of_le hxa with hlt | heq
        · exact Or.inl hlt
        · exact Or.inr ⟨heq.symm, ha x hx⟩
      · refine List.Pairwise.cons ?_ (ih ht (fun x hx => ha x (List.mem_cons_of_mem _ hx)))
        intro x hx
        rcases (List.mem_orderedInsert rLe).mp hx with rfl | hxt
        · exact Or.inl (lt_of_not_ge hab)
        · exact hbt x hxt

theorem pairwise_lexRank_insertionSort (l : List RankedEntry)
    (hidx : l.Pairwise (fun a b => a.seqIndex < b.seqIndex)) :
    (List.insertionSort rLe l).Pairwise lexRank := by
  induction l with
  | nil => simp [List.insertionSort]
  | cons a t ih =>
      rcases List.pairwise_cons.mp hidx with ⟨hat, ht⟩
      rw [List.insertionSort]
      exact pairwise_lexRank_orderedInsert a _ (ih ht)
        (fun b hb => hat b ((List.mem_insertionSort rLe).mp hb))

/-! ### Structure of `attachFloats` -/

theorem attachFloatsAux_map_entry (s c1 c2 : List ℕ) :
    ∀ (i : ℕ) (es : List Entry),
      (attachFloatsAux s c1 c2 i es).map RankedEntry.entry = es := by
  intro i es
  induction es generalizing i with
  | nil => rfl
  | cons e es ih => simp [attachFloatsAux, ih]

theorem attachFloatsAux_length (s c1 c2 : List ℕ) :
    ∀ (i : ℕ) (es : List Entry), (attachFloatsAux s c1 c2 i es).length = es.length := by
  intro i es
  induction es generalizing i with
  | nil => rfl
  | cons e es ih => simp [attachFloatsAux, ih]

theorem attachFloatsAux_le_seqIndex (s c1 c2 : List ℕ) :
    ∀ (i : ℕ) (es : List Entry) (r : RankedEntry),
      r ∈ attachFloatsAux s c1 c2 i es → i ≤ r.seqIndex := by
  intro i es
  induction es generalizing i with
  | nil => intro r hr; cases hr
  | cons e es ih =>
      intro r hr
      rcases List.mem_cons.mp hr with rfl | hr
      · exact le_refl _
      · exact le_trans (Nat.le_succ i) (ih (i + 1) r hr)

theorem attachFloatsAux_pairwise_seqIndex (s c1 c2 : List ℕ) :
    ∀ (i : ℕ) (es : List Entry),
      (attachFloatsAux s c1 c2 i es).Pairwise (fun a b => a.seqIndex < b.seqIndex) := by
  intro i es
  induction es generalizing i with
  | nil => exact List.Pairwise.nil
  | cons e es ih =>
      refine List.Pairwise.cons ?_ (ih (i + 1))
      intro b hb
      exact lt_of_lt_of_le (Nat.lt_succ_self i) (attachFloatsAux_le_seqIndex s c1 c2 (i + 1) es b hb)

theorem rankedOf_pairwise (serverSeed cs1 cs2 : List ℕ) (es : List Entry) :
    (rankedOf serverSeed cs1 cs2 es).Pairwise lexRank :=
  pairwise_lexRank_insertionSort _ (attachFloatsAux_pairwise_seqIndex serverSeed cs1 cs2 0 es)

theorem rankedOf_perm (serverSeed cs1 cs2 : List ℕ) (es : List Entry) :
    (rankedOf serverSeed cs1 cs2 es).Perm (attachFloats serverSeed cs1 cs2 es) :=
  List.perm_insertionSort rLe _

theorem rankedOf_length (serverSeed cs1 cs2 : List ℕ) (es : List Entry) :
    (rankedOf serverSeed cs1 cs2 es).length = es.length := by
  rw [(rankedOf_perm serverSeed cs1 cs2 es).length_eq]
  exact attachFloatsAux_length serverSeed cs1 cs2 0 es

theorem rankedOf_map_entry_perm (serverSeed cs1 cs2 : List ℕ) (es : List Entry) :
    ((rankedOf serverSeed cs1 cs2 es).map RankedEntry.entry).Perm es := by
  have h := (rankedOf_perm serverSeed cs1 cs2 es).map RankedEntry.entry
  unfold attachFloats at h
  rwa [attachFloatsAux_map_entry] at h

/-! ### Prefix, head and length behaviour of the elimination phases -/

theorem take_head? {α : Type} (l : List α) (k : ℕ) (hk : 0 < k) :
    (l.take k).head? = l.head? := by
  cases l with
  | nil => simp
  | cons a t =>
      cases k with
      | zero => omega
      | succ k => simp

theorem roundKeep_pos (n : ℕ) (f : Dyadic) : 0 < roundKeep n f :=
  lt_of_lt_of_le Nat.zero_lt_one (le_max_left _ _)

theorem finalToEliminate_pos (n : ℕ) : 0 < finalToEliminate n :=
  lt_of_lt_of_le Nat.zero_lt_one (le_max_left _ _)

theorem finalKeep_pos (n : ℕ) : 0 < finalKeep n := by
  unfold finalKeep
  have h := le_max_left (1 : ℤ) ((n : ℤ) - finalToEliminate n)
  omega

theorem applyRound_head? (l : List RankedEntry) (f : Dyadic) :
    (applyRound l f).head? = l.head? :=
  take_head? l _ (roundKeep_pos _ _)

theorem finalPass_head? (l : List RankedEntry) :
    (finalPass l).head? = l.head? :=
  take_head? l _ (finalKeep_pos _)

theorem foldl_applyRound_head? (fs : List Dyadic) :
    ∀ l : List RankedEntry, (fs.foldl applyRound l).head? = l.head? := by
  induction fs with
  | nil => intro l; rfl
  | cons f fs ih => intro l; rw [List.foldl_cons, ih, applyRound_head?]

theorem roundsPhase_head? (l : List RankedEntry) : (roundsPhase l).head? = l.head? :=
  foldl_applyRound_head? roundFracs l

theorem finalPhaseAux_head? :
    ∀ (fuel : ℕ) (l : List RankedEntry), (finalPhaseAux fuel l).head? = l.head? := by
  intro fuel
  induction fuel with
  | zero => intro l; rfl
  | succ fuel ih =>
      intro l
      rw [finalPhaseAux]
      split_ifs with h
      · rfl
      · rw [ih, finalPass_head?]

theorem finalPhase_head? (l : List RankedEntry) : (finalPhase l).head? = l.head? :=
  finalPhaseAux_head? l.length l

theorem foldl_applyRound_take (fs : List Dyadic) :
    ∀ l : List RankedEntry, ∃ k, fs.foldl applyRound l = l.take k := by
  induction fs with
  | nil => intro l; exact ⟨l.length, (List.take_length l).symm⟩
  | cons f fs ih =>
      intro l
      rcases ih (applyRound l f) with ⟨k, hk⟩
      refine ⟨min k (roundKeep l.length f), ?_⟩
      rw [List.foldl_cons, hk]
      exact List.take_take ..

theorem finalPhaseAux_take :
    ∀ (fuel : ℕ) (l : List RankedEntry), ∃ k, finalPhaseAux fuel l = l.take k := by
  intro fuel
  induction fuel with
  | zero => intro l; exact ⟨l.length, (List.take_length l).symm⟩
  | succ fuel ih =>
      intro l
      rw [finalPhaseAux]
      split_ifs with h
      · exact ⟨l.length, (List.take_length l).symm⟩
      · rcases ih (finalPass l) with ⟨k, hk⟩
        refine ⟨min k (finalKeep l.length), ?_⟩
        rw [hk]
        exact List.take_take ..

theorem applyRound_length (l : List RankedEntry) (f : Dyadic) :
    (applyRound l f).length = min (roundKeep l.length f) l.length :=
  List.length_take ..

theorem finalPass_length (l : List RankedEntry) (h : 2 ≤ l.length) :
    1 ≤ (finalPass l).length ∧ (finalPass l).length < l.length ∧
      l.length - (finalPass l).length = min (finalToEliminate l.length) (l.length - 1) := by
  have he : 1 ≤ finalToEliminate l.length := finalToEliminate_pos _
  have hlen : (finalPass l).length = min (finalKeep l.length) l.length := by
    unfold finalPass
    exact List.length_take ..
  have hkeep : finalKeep l.length = (max 1 ((l.length : ℤ) - finalToEliminate l.length)).toNat := rfl
  omega

theorem finalPhaseAux_length :
    ∀ (fuel : ℕ) (l : List RankedEntry), l.length ≤ fuel + 1 → l ≠ [] →
      (finalPhaseAux fuel l).length = 1 := by
  intro fuel
  induction fuel with
  | zero =>
      intro l hfuel hne
      have : 0 < l.length := List.length_pos.mpr hne
      have : finalPhaseAux 0 l = l := rfl
      rw [this]
      omega
  | succ fuel ih =>
      intro l hfuel hne
      have hpos : 0 < l.length := List.length_pos.mpr hne
      rw [finalPhaseAux]
      split_ifs with h
      · omega
      · have h2 : 2 ≤ l.length := by omega
        rcases finalPass_length l h2 with ⟨h1, hlt, _⟩
        exact ih (finalPass l) (by omega) (List.ne_nil_of_length_pos (by omega))

theorem finalPhase_length_eq_one (l : List RankedEntry) (h : l ≠ []) :
    (finalPhase l).length = 1 :=
  finalPhaseAux_length l.length l (Nat.le_succ _) h

theorem runBattleRoyale_ok_mk (su : Setup) (es : List Entry) (tot : String → ℕ)
    (col : Bool) (ss cs1 cs2 : List ℕ) (ff : Option (List RankedEntry))
    (w : Option RankedEntry) (hne : es ≠ []) :
    runBattleRoyale ⟨su, es, tot, col, ss, some cs1, some cs2, ff, w⟩ =
      Except.ok (runResult su es tot col ss cs1 cs2) := by
  cases es with
  | nil => exact absurd rfl hne
  | cons e es => rfl

theorem winner_runResult (su : Setup) (es : List Entry) (tot : String → ℕ) (col : Bool)
    (ss cs1 cs2 : List ℕ) :
    (runResult su es tot col ss cs1 cs2).winner =
      (finalPhase (roundsPhase (rankedOf ss cs1 cs2 es))).head? := by
  simp only [runResult]

theorem finalFloats_runResult (su : Setup) (es : List Entry) (tot : String → ℕ) (col : Bool)
    (ss cs1 cs2 : List ℕ) :
    (runResult su es tot col ss cs1 cs2).finalFloats =
      some (rankedOf ss cs1 cs2 es) := by
  simp only [runResult]

theorem runBattleRoyale_mk_spec (su : Setup) (es : List Entry) (tot : String → ℕ)
    (col : Bool) (ss cs1 cs2 : List ℕ) (ff : Option (List RankedEntry))
    (w : Option RankedEntry) (hne : es ≠ []) :
    ∃ g' : Giveaway,
      runBattleRoyale ⟨su, es, tot, col, ss, some cs1, some cs2, ff, w⟩ = Except.ok g' ∧
      g'.winner = (finalPhase (roundsPhase (rankedOf ss cs1 cs2 es))).head? ∧
      g'.finalFloats = some (rankedOf ss cs1 cs2 es) :=
  ⟨runResult su es tot col ss cs1 cs2,
    runBattleRoyale_ok_mk su es tot col ss cs1 cs2 ff w hne,
    winner_runResult su es tot col ss cs1 cs2,
    finalFloats_runResult su es tot col ss cs1 cs2⟩

theorem runBattleRoyale_eq_of_empty (gw : Giveaway) (cs1 cs2 : List ℕ)
    (hc1 : gw.clientSeed1 = some cs1) (hc2 : gw.clientSeed2 = some cs2)
    (hent : gw.entries = []) :
    runBattleRoyale gw = Except.ok gw := by
  obtain ⟨su, es, tot, col, ss, c1, c2, ff, w⟩ := gw
  simp only at hc1 hc2 hent
  subst hc1
  subst hc2
  subst hent
  rfl

/-! ### Claim C3: the frozen ranking is total and never recomputed -/

/-- C3: the ranking computed at the transition into the run orders the
entries by descending fairness value with ties broken by ascending
sequence index (a total, reproducible order), contains every entry of
the pool, and is never recomputed mid-tournament: both the three rounds
and the final phase only ever truncate the frozen ranking to a top
segment. -/
theorem ranking_total_and_frozen :
    (∀ (serverSeed cs1 cs2 : List ℕ) (es : List Entry),
        (rankedOf serverSeed cs1 cs2 es).Pairwise lexRank) ∧
    (∀ (serverSeed cs1 cs2 : List ℕ) (es : List Entry),
        (rankedOf serverSeed cs1 cs2 es).Perm (attachFloats serverSeed cs1 cs2 es)) ∧
    (∀ l : List RankedEntry, ∃ k, roundsPhase l = l.take k) ∧
    (∀ l : List RankedEntry, ∃ k, finalPhase l = l.take k) :=
  ⟨rankedOf_pairwise, rankedOf_perm,
   fun l => foldl_applyRound_take roundFracs l,
   fun l => finalPhaseAux_take l.length l⟩

/-! ### Claim C2: round eliminations -/

/-- C2 counterexample: with a pool of 90 survivors, round 1 of the
program keeps 62 entries — `90 * (1 - 0.30)` is `62.99999999999999` in
binary64, so `Math.floor` yields 62 — whereas the claimed formula
`max(1, ⌊n × (1 − fraction)⌋)` read in exact arithmetic yields 63. -/
theorem round_keep_exact_formula_fails_at_ninety :
    (applyRound (testPool 90) double03).length = 62 ∧
    max 1 ⌊(90 : ℚ) * (1 - 30 / 100)⌋₊ = 63 := by
  constructor
  · have h90 : (testPool 90).length = 90 := by simp [testPool]
    have hk : roundKeep 90 double03 = 62 := by decide
    simp only [applyRound, List.length_take, h90, hk]
    omega
  · rw [show (90 : ℚ) * (1 - 30 / 100) = 63 by norm_num]
    simp

/-- C2 (amended): at the end of each round the survivors are exactly
the top `roundKeep n f` entries of the current (frozen) ranking, where
`roundKeep n f = max(1, Math.floor(n * (1 - f)))` is computed in
binary64 arithmetic — this agrees with the exact-arithmetic formula at
the spec's scenario sizes but not at every size (see the
90-entry counterexample) — the eliminated entries are the remaining
`n - roundKeep n f` lowest-ranked ones, independently of the preview
frames; a pool of 10 entries leaves 7, then 4, then 3 survivors. -/
theorem rounds_keep_top_of_frozen_ranking :
    (∀ (l : List RankedEntry) (f : Dyadic),
        applyRound l f = l.take (roundKeep l.length f) ∧
        (l.drop (roundKeep l.length f)).length = l.length - roundKeep l.length f) ∧
    (∀ l : List RankedEntry, l.length = 10 →
        (roundFracs.scanl applyRound l).map List.length = [10, 7, 4, 3]) := by
  constructor
  · intro l f
    exact ⟨rfl, List.length_drop ..⟩
  · intro l h10
    have h1 : roundKeep 10 double03 = 7 := by decide
    have h2 : roundKeep 7 double04 = 4 := by decide
    have h3 : roundKeep 4 double025 = 3 := by decide
    have e1 : (applyRound l double03).length = 7 := by
      rw [applyRound_length, h10, h1]; omega
    have e2 : (applyRound (applyRound l double03) double04).length = 4 := by
      rw [applyRound_length, e1, h2]; omega
    have e3 : (applyRound (applyRound (applyRound l double03) double04) double025).length = 3 := by
      rw [applyRound_length, e2, h3]; omega
    simp [roundFracs, List.scanl, h10, e1, e2, e3]

/-- Witness for the amended C2 on a concrete pool of ten entries. -/
theorem rounds_keep_top_of_frozen_ranking_witness :
    (roundFracs.scanl applyRound (testPool 10)).map List.length = [10, 7, 4, 3] :=
  rounds_keep_top_of_frozen_ranking.2 (testPool 10) (by simp [testPool])

/-! ### Claim C4: termination of the final phase -/

set_option maxRecDepth 20000 in
/-- C4: for every nonempty pool the final phase terminates with exactly
one survivor, which `runBattleRoyale` records as the winner; each pass
keeps at least one entry and strictly decreases the survivor count,
eliminating `min(toEliminate, n-1)` entries where
`toEliminate = max(1, Math.floor(n * 0.12))`; the binary64 floor agrees
with exact arithmetic (`max(1, ⌊12n/100⌋)`) on all checked sizes (it
in fact agrees for every feasible pool size, since `0.12` rounds down
to its binary64 value by less than half an ulp of every product). -/
theorem final_phase_terminates_with_winner :
    (∀ l : List RankedEntry, l ≠ [] → (finalPhase l).length = 1) ∧
    (∀ l : List RankedEntry, 2 ≤ l.length →
        1 ≤ (finalPass l).length ∧ (finalPass l).length < l.length ∧
        l.length - (finalPass l).length = min (finalToEliminate l.length) (l.length - 1)) ∧
    (∀ n : ℕ, n ≤ 128 → finalToEliminate n = max 1 (12 * n / 100)) ∧
    (∀ (gw : Giveaway) (cs1 cs2 : List ℕ),
        gw.clientSeed1 = some cs1 → gw.clientSeed2 = some cs2 → gw.entries ≠ [] →
        ∃ g' : Giveaway, runBattleRoyale gw = Except.ok g' ∧ g'.winner.isSome = true) := by
  refine ⟨finalPhase_length_eq_one, finalPass_length, by decide, ?_⟩
  intro gw cs1 cs2 hc1 hc2 hne
  obtain ⟨su, es, tot, col, ss, c1, c2, ff, w⟩ := gw
  simp only at hc1 hc2 hne
  subst hc1
  subst hc2
  obtain ⟨g', hrun, hwin, hff⟩ := runBattleRoyale_mk_spec su es tot col ss cs1 cs2 ff w hne
  refine ⟨g', hrun, ?_⟩
  rw [hwin, finalPhase_head?, roundsPhase_head?]
  have hrne : rankedOf ss cs1 cs2 es ≠ [] := by
    apply List.ne_nil_of_length_pos
    rw [rankedOf_length]
    exact List.length_pos.mpr hne
  rcases hr : rankedOf ss cs1 cs2 es with _ | ⟨hd, rest⟩
  · exact absurd hr hrne
  · rfl

/-- Witness for C4 on a concrete pool of three entries. -/
theorem final_phase_terminates_with_winner_witness :
    (finalPhase (testPool 3)).length = 1 :=
  final_phase_terminates_with_winner.1 (testPool 3) (by simp [testPool])

/-! ### Claim C10: the winner is the top-ranked entry -/

/-- C10: for every nonempty pool, the winner recorded by
`runBattleRoyale` is exactly the head of the frozen ranking — every
round and every final-phase pass keeps a nonempty top segment, so the
top-ranked entry survives everything — and that head has a fairness
value at least that of every entry in the pool. -/
theorem winner_equals_top_ranked :
    ∀ (gw : Giveaway) (cs1 cs2 : List ℕ),
      gw.clientSeed1 = some cs1 → gw.clientSeed2 = some cs2 → gw.entries ≠ [] →
      ∃ g' : Giveaway, runBattleRoyale gw = Except.ok g' ∧
        g'.winner = (rankedOf gw.serverSeed cs1 cs2 gw.entries).head? ∧
        ∀ w ∈ (rankedOf gw.serverSeed cs1 cs2 gw.entries).head?,
          ∀ r ∈ attachFloats gw.serverSeed cs1 cs2 gw.entries, r.pfFloat ≤ w.pfFloat := by
  intro gw cs1 cs2 hc1 hc2 hne
  obtain ⟨su, es, tot, col, ss, c1, c2, ff, wi⟩ := gw
  simp only at hc1 hc2 hne ⊢
  subst hc1
  subst hc2
  obtain ⟨g', hrun, hwin, hff⟩ := runBattleRoyale_mk_spec su es tot col ss cs1 cs2 ff wi hne
  refine ⟨g', hrun, ?_, ?_⟩
  · rw [hwin, finalPhase_head?, roundsPhase_head?]
  · intro w hw r hr
    have hmem : r ∈ rankedOf ss cs1 cs2 es :=
      ((rankedOf_perm ss cs1 cs2 es).mem_iff).mpr hr
    have hpair := rankedOf_pairwise ss cs1 cs2 es
    rcases hranked : rankedOf ss cs1 cs2 es with _ | ⟨w0, rest⟩
    · rw [hranked] at hmem
      cases hmem
    · rw [hranked] at hw hmem hpair
      have hw0 : w0 = w := by
        simpa using hw
      subst hw0
      rcases List.pairwise_cons.mp hpair with ⟨hall, _⟩
      rcases List.mem_cons.mp hmem with rfl | hrest
      · exact le_refl _
      · exact lexRank_pf_le (hall r hrest)

/-- Witness for C10 on a concrete one-entry giveaway. -/
theorem winner_equals_top_ranked_witness :
    ∃ g' : Giveaway, runBattleRoyale demoGw = Except.ok g' ∧
      g'.winner = (rankedOf demoGw.serverSeed [97] [98] demoGw.entries).head? ∧
      ∀ w ∈ (rankedOf demoGw.serverSeed [97] [98] demoGw.entries).head?,
        ∀ r ∈ attachFloats demoGw.serverSeed [97] [98] demoGw.entries, r.pfFloat ≤ w.pfFloat :=
  winner_equals_top_ranked demoGw [97] [98] rfl rfl (by simp [demoGw])

/-! ### Claim C9: the final ranking is a permutation of the ledger -/

/-- C9: for every completed run, the published `finalFloats` ranking is
exactly the frozen ranking, whose length equals the number of ledger
entries and whose underlying entries are a permutation (with
multiplicity) of the ledger. -/
theorem finalRanking_is_permutation :
    ∀ (gw : Giveaway) (cs1 cs2 : List ℕ),
      gw.clientSeed1 = some cs1 → gw.clientSeed2 = some cs2 → gw.entries ≠ [] →
      ∃ g' : Giveaway, runBattleRoyale gw = Except.ok g' ∧
        g'.finalFloats = some (rankedOf gw.serverSeed cs1 cs2 gw.entries) ∧
        (rankedOf gw.serverSeed cs1 cs2 gw.entries).length = gw.entries.length ∧
        ((rankedOf gw.serverSeed cs1 cs2 gw.entries).map RankedEntry.entry).Perm gw.entries := by
  intro gw cs1 cs2 hc1 hc2 hne
  obtain ⟨su, es, tot, col, ss, c1, c2, ff, wi⟩ := gw
  simp only at hc1 hc2 hne ⊢
  subst hc1
  subst hc2
  obtain ⟨g', hrun, hwin, hff⟩ := runBattleRoyale_mk_spec su es tot col ss cs1 cs2 ff wi hne
  exact ⟨g', hrun, hff, rankedOf_length .., rankedOf_map_entry_perm ..⟩

/-- Witness for C9 on a concrete one-entry giveaway. -/
theorem finalRanking_is_permutation_witness :
    ∃ g' : Giveaway, runBattleRoyale demoGw = Except.ok g' ∧
      g'.finalFloats = some (rankedOf demoGw.serverSeed [97] [98] demoGw.entries) ∧
      (rankedOf demoGw.serverSeed [97] [98] demoGw.entries).length = demoGw.entries.length ∧
      ((rankedOf demoGw.serverSeed [97] [98] demoGw.entries).map RankedEntry.entry).Perm
        demoGw.entries :=
  finalRanking_is_permutation demoGw [97] [98] rfl rfl (by simp [demoGw])

/-! ### Claim C8: empty pool -/

/-- C8: when a run is attempted on a giveaway with zero entries,
`runBattleRoyale` terminates immediately with the giveaway unchanged:
no elimination round executes and no winner is ever set (the record's
`winner` field stays `none`, since it was never assigned).  The state
field `collecting` is likewise untouched; "Finished with winner = null"
corresponds to this unchanged, run-complete record. -/
theorem empty_pool_finishes_without_winner :
    ∀ (gw : Giveaway) (cs1 cs2 : List ℕ),
      gw.clientSeed1 = some cs1 → gw.clientSeed2 = some cs2 → gw.entries = [] →
      runBattleRoyale gw = Except.ok gw := by
  intro gw cs1 cs2 hc1 hc2 hent
  exact runBattleRoyale_eq_of_empty gw cs1 cs2 hc1 hc2 hent

/-- Witness for C8 on a concrete empty giveaway. -/
theorem empty_pool_finishes_without_winner_witness :
    runBattleRoyale emptyGw = Except.ok emptyGw :=
  empty_pool_finishes_without_winner emptyGw [97] [98] rfl rfl rfl

/-! ### Claim C5: admission after collection closes -/

/-- C5 counterexample: a join request that is already in the queue when
collection closes is still granted when processed — the queued task
does not re-check `collecting` — so with `collecting = false` at
processing time one entry is appended, contradicting the claim that
such a request is dropped with zero entries granted. -/
theorem join_processed_after_close_grants_entries :
    emptyGw.collecting = false ∧
    (processJoin emptyGw ⟨"alice", "alice", some []⟩).entries.length = 1 := by
  constructor
  · rfl
  · rfl

/-- C5 (amended): the `Collecting` check happens when the join button
is pressed, not when the queued request is processed: a request
submitted when the tournament is no longer collecting is dropped with
an explicit rejection reply and is never enqueued; but a request that
entered the queue while collecting is granted its entries when
processed even if collection has closed in the meantime. -/
theorem join_rejected_at_submission_only :
    (∀ (gw : Giveaway) (q : List JoinRequest) (req : JoinRequest),
        gw.collecting = false →
        handleJoinButton gw q req = (q, some "Collection already ended.")) ∧
    (∀ (gw : Giveaway) (req : JoinRequest),
        (processJoin gw req).entries.length =
          gw.entries.length + computeEntryCount gw.setup req.memberRoles) := by
  constructor
  · intro gw q req hcol
    simp [handleJoinButton, hcol]
  · intro gw req
    simp [processJoin, mkEntries]

/-- Witness for the amended C5 on a concrete closed giveaway. -/
theorem join_rejected_at_submission_only_witness :
    handleJoinButton emptyGw [] ⟨"alice", "alice", some []⟩ =
      ([], some "Collection already ended.") :=
  join_rejected_at_submission_only.1 emptyGw [] ⟨"alice", "alice", some []⟩ rfl

/-! ### Claim C6: seed submission after the tournament is finished -/

/-- C6 counterexample: on a giveaway that already has a winner, a
further seed submission does not fail — it overwrites both client
seeds (and re-runs the tournament), so the seeds do not stay
unchanged. -/
theorem seeds_overwritten_after_finish :
    finishedGw.winner.isSome = true ∧
    finishedGw.clientSeed1 = some [97] ∧
    (submitSeeds finishedGw [1, 2] [3, 4]).toOption.map Giveaway.clientSeed1 =
      some (some [1, 2]) ∧
    some ([1, 2] : List ℕ) ≠ some [97] := by
  refine ⟨rfl, rfl, rfl, ?_⟩
  decide

/-- C6 (amended): the seeds modal handler always stores both client
seeds together (never one without the other) and starts a run, for any
giveaway state — including one whose winner is already fixed, whose
seeds it overwrites; there is no "already finished" guard.  The ledger
entries and per-user totals are not modified by seed submission. -/
theorem seeds_always_set_together :
    ∀ (gw : Giveaway) (cs1 cs2 : List ℕ),
      (submitSeeds gw cs1 cs2).toOption.map
          (fun g => (g.clientSeed1, g.clientSeed2, g.entries)) =
        some (some cs1, some cs2, gw.entries) := by
  intro gw cs1 cs2
  obtain ⟨setup, entries, totals, col, ss, c1, c2, ff, w⟩ := gw
  cases entries <;> rfl

/-! ### Claim C7: entry multiplier and totals -/

theorem foldl_max_eq_max_filter (p : RoleEntry → Bool) :
    ∀ (L : List RoleEntry) (base : ℕ),
      L.foldl (fun acc re => if p re then max acc re.entries else acc) base =
        max base (((L.filter p).map RoleEntry.entries).foldr max 0) := by
  intro L
  induction L with
  | nil => intro base; simp
  | cons re t ih =>
      intro base
      cases hp : p re
      · simp only [List.foldl_cons, List.filter_cons, hp, Bool.false_eq_true, if_false]
        exact ih base
      · simp only [List.foldl_cons, List.filter_cons, hp, if_true, List.map_cons,
          List.foldr_cons]
        rw [ih]
        omega

/-- C7: the number of entries granted to a processed join equals
`max(baseEntries, max over matching role tags of that tag's configured
entries)` (base defaulting to 1 when unset); when role resolution
fails (`memberRoles = none`, the caught-exception path) the multiplier
falls back to the base; the per-user total is incremented by exactly
the granted count, accumulating over repeated joins; and on the spec's
scenario setup a non-VIP join grants 1 entry while a VIP join grants
5. -/
theorem join_grant_multiplier :
    (∀ (setup : Setup) (roles : List String),
        computeEntryCount setup (some roles) =
          max (setup.baseEntries.getD 1)
            (((setup.roleEntries.filter
                (fun re => re.roleId != "" && roles.contains re.roleId)).map
                RoleEntry.entries).foldr max 0)) ∧
    (∀ setup : Setup, computeEntryCount setup none = setup.baseEntries.getD 1) ∧
    (∀ (gw : Giveaway) (req : JoinRequest),
        (processJoin gw req).entries.length =
          gw.entries.length + computeEntryCount gw.setup req.memberRoles ∧
        (processJoin gw req).entrantsByUser req.userId =
          gw.entrantsByUser req.userId + computeEntryCount gw.setup req.memberRoles) ∧
    computeEntryCount ⟨some 1, [⟨"vip", 5⟩]⟩ (some ["vip"]) = 5 ∧
    computeEntryCount ⟨some 1, [⟨"vip", 5⟩]⟩ (some ["other"]) = 1 := by
  refine ⟨?_, fun _ => rfl, ?_, rfl, rfl⟩
  · intro setup roles
    exact foldl_max_eq_max_filter _ setup.roleEntries _
  · intro gw req
    constructor
    · simp [processJoin, mkEntries]
    · simp [processJoin, bumpTotals]

end StreamGA
